import Mathlib

/-!
Shallow embedding of the Tetris game engine from `src/Tetris.ts`
(moody-cookie/tetris-ts), together with theorems checking the
natural-language specification against it.

Conventions of the embedding:
* machine numbers of the source are modelled as `Int` (coordinates,
  score) or `Nat` (counters, indices); no overflow is relevant at the
  magnitudes the engine uses;
* the mutable `Tetris` class instance becomes the explicit record
  `GameState`, and every method becomes a function `GameState → GameState`;
* sources of randomness (`getNextTetromino`, `getNextRandomColor`,
  `Math.random`) are passed in as explicit oracle arguments;
* DOM / canvas side effects (`renderScore`, `options.toggle`, display
  rendering) have no engine-state effect and are dropped.
-/

/-- Color names, `Color` in `Display.ts` (a key of the palette object). -/
abbrev Color := String

/-- `DEFAULT_COLOR` in `Tetris.ts`. -/
def DEFAULT_COLOR : Color := "White"

/-- A coordinate pair `{x, y}`; x grows rightward, y grows downward. -/
structure Point where
  x : Int
  y : Int
deriving DecidableEq, Repr

/-- A field cell `{x, y, color}` (`RenderPoint` with its color set). -/
structure Cell where
  x : Int
  y : Int
  color : Color
deriving DecidableEq, Repr

/-- `GRID_WIDTH` in `Tetris.ts`: cell count horizontal. -/
def GRID_WIDTH : Nat := 10

/-- `GRID_HEIGHT` in `Tetris.ts`: cell count vertical. -/
def GRID_HEIGHT : Nat := 20

/-- A tetromino: the ordered list of its rotation states, each a list of
relative cell offsets (`Tetromino` from `tetrominoes.js`; the catalog data
itself is not needed, every definition is parametric in it). -/
abbrev Tetromino := List (List Point)

/-- `INITIAL_TETROMINO_POSITION` in `Tetris.ts`. -/
def INITIAL_TETROMINO_POSITION : Point := ⟨4, -1⟩

/-- Strafe direction (`Direction` enum in `Tetris.ts`). -/
inductive Direction where
  | left
  | right
deriving DecidableEq, Repr

/-- The whole mutable state of the `Tetris` class that the engine logic
reads or writes (display/clock/keyboard handles and the difficulty and
speed options are omitted; difficulty enters only through the modelled
restart pre-fill, which takes the row count as an argument). -/
structure GameState where
  field : List Cell
  filledField : List Cell
  currentTetromino : Tetromino
  currentTetrominoPosition : Point
  currentTetrominoRotation : Nat
  currentColor : Color
  nextTetromino : Tetromino
  nextColor : Color
  score : Int
  pause : Bool
  isColorOn : Bool
  gameOver : Bool
  isLastMove : Bool
  isFirstMove : Bool
deriving DecidableEq, Repr

/-- Getter `currentTetrominoCoords`: the offsets of the current rotation
state (`this.currentTetromino[this.currentTetrominoRotation]`). -/
def currentTetrominoCoords (s : GameState) : List Point :=
  s.currentTetromino.getD s.currentTetrominoRotation []

/-- Getter `currentTetrominoAbsoluteCoords`: offsets translated by the
current position. -/
def currentTetrominoAbsoluteCoords (s : GameState) : List Point :=
  (currentTetrominoCoords s).map fun c =>
    ⟨c.x + s.currentTetrominoPosition.x, c.y + s.currentTetrominoPosition.y⟩

/-- `checkCanPullTetromino`: no cell of the piece moved one row down
(`potentialPullAbsoluteCoords`) is at `y ≥ GRID_HEIGHT` or on a filled
cell. -/
def checkCanPullTetromino (s : GameState) : Bool :=
  ! ((currentTetrominoAbsoluteCoords s).map fun c => Point.mk c.x (c.y + 1)).any
      fun p =>
        decide ((GRID_HEIGHT : Int) ≤ p.y) ||
          s.filledField.any fun f => decide (p.x = f.x) && decide (f.y = p.y)

/-- `checkCanStrafeTetromino`: no cell of the piece moved one column in
the given direction (`potentialStrafeLeftCoords` /
`potentialStrafeRightCoords`) is past that side wall or on a filled cell. -/
def checkCanStrafeTetromino (direction : Direction) (s : GameState) : Bool :=
  match direction with
  | .left =>
    ! ((currentTetrominoAbsoluteCoords s).map fun c => Point.mk (c.x - 1) c.y).any
        fun p =>
          decide (p.x < 0) ||
            s.filledField.any fun f => decide (p.x = f.x) && decide (f.y = p.y)
  | .right =>
    ! ((currentTetrominoAbsoluteCoords s).map fun c => Point.mk (c.x + 1) c.y).any
        fun p =>
          decide ((GRID_WIDTH : Int) ≤ p.x) ||
            s.filledField.any fun f => decide (p.x = f.x) && decide (f.y = p.y)

/-- Modelled from the spec: `getNextTetrominoRotation` lives in
`tetrominoes.js`, which is not part of the given sources.  Per the spec it
returns `(current + 1) mod rotationCount(type)`, and an initial index `0`
when the current index is omitted (fresh spawn). -/
def getNextTetrominoRotation (t : Tetromino) : Option Nat → Nat
  | none => 0
  | some current => (current + 1) % t.length

/-- JS `Math.max(...list)` over a list of integers; the source only applies
it to the four cells of a rotation state, so the empty-list value
(`-Infinity` in JS, a sentinel here) never matters. -/
def jsMaxInt : List Int → Int
  | [] => -(2 ^ 60)
  | x :: xs => xs.foldl max x

/-- JS `Math.min(...list)`, same remark as `jsMaxInt`. -/
def jsMinInt : List Int → Int
  | [] => 2 ^ 60
  | x :: xs => xs.foldl min x

/-- `checkCanRotateTetromino`: the naively advanced rotation state must be
inside all four bounds and not overlap the filled field. -/
def checkCanRotateTetromino (s : GameState) : Bool :=
  let potentialTetrominoRotation :=
    getNextTetrominoRotation s.currentTetromino (some s.currentTetrominoRotation)
  let potentialTetrominoCoords :=
    (s.currentTetromino.getD potentialTetrominoRotation []).map fun c =>
      Point.mk (c.x + s.currentTetrominoPosition.x)
        (c.y + s.currentTetrominoPosition.y)
  let xs := potentialTetrominoCoords.map Point.x
  let ys := potentialTetrominoCoords.map Point.y
  let maxY := jsMaxInt ys
  let minX := jsMinInt xs
  let maxX := jsMaxInt xs
  decide (maxY < (GRID_HEIGHT : Int)) && decide (0 ≤ minX) &&
    decide (maxX < (GRID_WIDTH : Int)) &&
    potentialTetrominoCoords.all fun p =>
      ! s.filledField.any fun f => decide (f.x = p.x) && decide (f.y = p.y)

/-- `strafeTetromino`: move sideways unless paused or illegal. -/
def strafeTetromino (direction : Direction) (s : GameState) : GameState :=
  if s.pause || ! checkCanStrafeTetromino direction s then s
  else
    let nextX := s.currentTetrominoPosition.x +
      (if direction = Direction.left then -1 else 1)
    { s with currentTetrominoPosition := ⟨nextX, s.currentTetrominoPosition.y⟩ }

/-- `pullTetromino`: move the piece one row down, unconditionally. -/
def pullTetromino (s : GameState) : GameState :=
  { s with currentTetrominoPosition :=
      ⟨s.currentTetrominoPosition.x, s.currentTetrominoPosition.y + 1⟩ }

/-- `rotateTetromino`: advance the rotation index unless paused or illegal. -/
def rotateTetromino (s : GameState) : GameState :=
  if s.pause || ! checkCanRotateTetromino s then s
  else
    { s with currentTetrominoRotation :=
        (getNextTetrominoRotation s.currentTetromino
          (some s.currentTetrominoRotation)) }

/-- `saveTetromino`: append the piece cells, tagged with the current
color, to the filled field. -/
def saveTetromino (s : GameState) : GameState :=
  { s with filledField := s.filledField ++
      (currentTetrominoAbsoluteCoords s).map fun p =>
        Cell.mk p.x p.y s.currentColor }

/-- The `allY` array in `destroyFilledRows`: the row indices `0 … 19`. -/
def allY : List Int := (List.range GRID_HEIGHT).map fun i => (i : Int)

/-- Number of filled cells in row `r` (`filledCellsAmount`). -/
def countRow (f : List Cell) (r : Int) : Nat :=
  (f.filter fun c => decide (c.y = r)).length

/-- The body of one clearing iteration of `destroyFilledRows` once row
`row` was found full: drop the row and move every cell with `y < row`
one row down (cells with `y > row` are returned untouched). -/
def clearRowStep (f : List Cell) (row : Int) : List Cell :=
  (f.filter fun c => ! decide (c.y = row)).map fun c =>
    if c.y > row then c else { c with y := c.y + 1 }

/-- The `for (const row of allY)` loop of `destroyFilledRows`, with the
row list, the current field and the `destroyedRows` counter explicit. -/
def destroyRowsLoop : List Int → List Cell → Nat → List Cell × Nat
  | [], f, destroyed => (f, destroyed)
  | row :: rest, f, destroyed =>
    if countRow f row ≠ GRID_WIDTH then destroyRowsLoop rest f destroyed
    else destroyRowsLoop rest (clearRowStep f row) (destroyed + 1)

/-- The score table of `addScore` (`switch (destroyedRows)`). -/
def scoreDelta : Nat → Int
  | 1 => 40
  | 2 => 100
  | 3 => 300
  | 4 => 1200
  | _ => 0

/-- `addScore`: add the table value for the destroyed-row count. -/
def addScore (destroyedRows : Nat) (s : GameState) : GameState :=
  { s with score := s.score + scoreDelta destroyedRows }

/-- `destroyFilledRows`: run the clearing loop over all rows and score the
result. -/
def destroyFilledRows (s : GameState) : GameState :=
  let p := destroyRowsLoop allY s.filledField 0
  addScore p.2 { s with filledField := p.1 }

/-- If the piece can be pulled, every cell of it sits strictly above the
row past the floor, in particular the cell built from any offset `o` of
the current rotation state. -/
theorem checkCanPull_y_bound (s : GameState) (o : Point)
    (ho : o ∈ currentTetrominoCoords s)
    (h : checkCanPullTetromino s = true) :
    o.y + s.currentTetrominoPosition.y + 1 < (GRID_HEIGHT : Int) := by
  unfold checkCanPullTetromino at h
  rw [Bool.not_eq_true', List.any_eq_false] at h
  have hp := h (Point.mk (o.x + s.currentTetrominoPosition.x)
      (o.y + s.currentTetrominoPosition.y + 1)) ?_
  · simp only [Bool.or_eq_true, decide_eq_true_eq, not_or, not_le] at hp
    exact hp.1
  · simp only [currentTetrominoAbsoluteCoords, List.map_map, List.mem_map,
      Function.comp]
    exact ⟨o, ho, rfl⟩

/-- The `while (this.checkCanPullTetromino()) { this.pullTetromino() }`
loop of `pullFullTetromino`.  The source loop terminates because every
rotation state of the shape catalog is a nonempty set of four cells, so
the floor check eventually fails; the embedding makes that explicit by
also stopping on an (unreachable) empty rotation state. -/
def pullFullLoop (s : GameState) : GameState :=
  if h : checkCanPullTetromino s = true ∧ currentTetrominoCoords s ≠ [] then
    pullFullLoop (pullTetromino s)
  else s
termination_by
  ((GRID_HEIGHT : Int) - ((currentTetrominoCoords s).headD ⟨0, 0⟩).y -
    s.currentTetrominoPosition.y).toNat
decreasing_by
  obtain ⟨hpull, hne⟩ := h
  have hmem : (currentTetrominoCoords s).headD ⟨0, 0⟩ ∈ currentTetrominoCoords s := by
    cases hcc : currentTetrominoCoords s with
    | nil => exact absurd hcc hne
    | cons a l => simp
  have hb := checkCanPull_y_bound s _ hmem hpull
  simp only [pullTetromino, currentTetrominoCoords] at *
  omega

/-- `pullFullTetromino` (hard drop): unless paused, clear the first-move
flag and pull the piece down while it can descend. -/
def pullFullTetromino (s : GameState) : GameState :=
  if s.pause then s
  else pullFullLoop { s with isFirstMove := false }

/-- `generateNextTetromino`: promote the queued piece and draw a fresh
queued one; `rnd` is the oracle pair (`getNextTetromino()`,
`getNextRandomColor()`). -/
def generateNextTetromino (rnd : Tetromino × Color) (s : GameState) : GameState :=
  { s with
    currentTetrominoPosition := INITIAL_TETROMINO_POSITION
    currentTetromino := s.nextTetromino
    currentColor := s.nextColor
    nextTetromino := rnd.1
    nextColor := if s.isColorOn then rnd.2 else DEFAULT_COLOR
    currentTetrominoRotation := getNextTetrominoRotation s.nextTetromino none }

/-- `game()`: one logic tick.  `rnd` is the randomness consumed when a
lock spawns the next piece. -/
def game (rnd : Tetromino × Color) (s : GameState) : GameState :=
  if s.pause || s.gameOver then s
  else
    let s1 := { s with field :=
      (s.filledField ++ (currentTetrominoAbsoluteCoords s).map fun p =>
        Cell.mk p.x p.y s.currentColor) }
    if checkCanPullTetromino s1 then
      pullTetromino { s1 with isLastMove := false, isFirstMove := false }
    else
      let s2 := if s1.isFirstMove then { s1 with gameOver := true, pause := true }
        else s1
      if ! s2.isLastMove then { s2 with isLastMove := true }
      else
        generateNextTetromino rnd
          { destroyFilledRows (saveTetromino { s2 with isLastMove := false }) with
            isFirstMove := true }

/-- `togglePause`: flip the pause flag unless the game is over. -/
def togglePause (s : GameState) : GameState :=
  if s.gameOver then s else { s with pause := ! s.pause }

/-- `RANDOM_FILL_COUNT` in `Tetris.ts`. -/
def RANDOM_FILL_COUNT : Nat := 5

/-- The `while (filledAmount < RANDOM_FILL_COUNT)` loop of `#fillRow`,
which computes the boolean array `generated`; `rand` is the oracle stream
of `Math.random() > 0.5` draws and `fuel` bounds the iterations (the
source loop runs until the stream has produced enough suitable draws). -/
def fillRowGenLoop (rand : Nat → Bool) :
    Nat → List Bool → Nat → Int → Nat → Nat → List Bool
  | 0, gen, _, _, _, _ => gen
  | fuel + 1, gen, filledAmount, current, filledStreak, rIdx =>
    if filledAmount < RANDOM_FILL_COUNT then
      let current := (current + 1) % (GRID_WIDTH : Int)
      if gen.getD current.toNat false then
        fillRowGenLoop rand fuel gen filledAmount current filledStreak rIdx
      else
        if decide (filledStreak < 2) && rand rIdx then
          fillRowGenLoop rand fuel (gen.set current.toNat true)
            (filledAmount + 1) current (filledStreak + 1) (rIdx + 1)
        else fillRowGenLoop rand fuel gen filledAmount current 0 (rIdx + 1)
    else gen

/-- The pure tail of `#fillRow`: turn the boolean array `generated` into
the filled cells of row `row` (`filtered` and the final `concat` payload
in the source); `colors` is the oracle of `getNextRandomColor()` draws,
indexed by the cell column. -/
def fillRowCells (generated : List Bool) (row : Int) (colors : Nat → Color) :
    List Cell :=
  ((generated.enum.filter fun p => p.2).map fun p => p.1).map
    fun (x : Nat) => Cell.mk (x : Int) row (colors x)

/-- `#fillRow` assembled: run the random loop on a fresh all-false array
(as the source does) and build the row cells from its outcome. -/
def fillRow (rand : Nat → Bool) (fuel : Nat) (row : Int) (colors : Nat → Color) :
    List Cell :=
  fillRowCells (fillRowGenLoop rand fuel (List.replicate GRID_WIDTH false) 0 (-1) 0 0)
    row colors

/-- `#fillField`: fill the bottom `difficulty` rows, appending each row
(rows `GRID_HEIGHT - 1 - i` for `i < difficulty`); the boolean array of
each row is the outcome `gens i` of its random loop. -/
def fillFieldModel (difficulty : Nat) (gens : Nat → List Bool)
    (rowColors : Nat → Nat → Color) : List Cell :=
  (List.range difficulty).foldl
    (fun acc i =>
      acc ++ fillRowCells (gens i) ((GRID_HEIGHT : Int) - 1 - i) (rowColors i))
    []

/-- `restart()`: reset score and flags, clear and pre-fill the field, and
spawn a fresh piece pair (`options.toggle` and `renderScore` are UI only;
note the source does not reset `isLastMove`). -/
def restart (difficulty : Nat) (gens : Nat → List Bool)
    (rowColors : Nat → Nat → Color) (rnd : Tetromino × Color)
    (s : GameState) : GameState :=
  generateNextTetromino rnd
    { s with
      score := 0
      gameOver := false
      pause := false
      isFirstMove := true
      filledField := (fillFieldModel difficulty gens rowColors)
      field := [] }

/-- Modelled from the spec: the row set of the reference clearing
algorithm, "all full rows identified in one pass over the pre-clear
field", scanned over the visible rows in increasing y. -/
def specFullRows (f : List Cell) : List Int :=
  allY.filter fun r => decide (countRow f r = GRID_WIDTH)

/-- Modelled from the spec: clear the given rows one at a time ("removing
each row's cells and shifting before scanning the next").  The rows are
passed bottommost first with their pre-clear indices; `k` counts the
rows already cleared, whose shifts have moved each remaining identified
row's cells `k` rows down, so the next row's cells sit at `r + k`. -/
def specClearRowsFrom : List Int → Int → List Cell → List Cell
  | [], _, f => f
  | r :: rs, k, f => specClearRowsFrom rs (k + 1) (clearRowStep f (r + k))

/-- Modelled from the spec: the whole reference algorithm of §4.3/§9 —
one identification pass over the pre-clear field, then clearing the
identified rows from bottommost to topmost; returns the final field and
the number of cleared rows. -/
def specDestroyFilledRows (f : List Cell) : List Cell × Nat :=
  (specClearRowsFrom (specFullRows f).reverse 0 f, (specFullRows f).length)

/-- How many of the rows in `R` are strictly below (`y <`) a cell at
height `y`; the amount such a cell moves down in one batch of clears. -/
def shiftCount (R : List Int) (y : Int) : Nat :=
  (R.filter fun r => decide (y < r)).length

/-- Canonical form of clearing the row batch `R`: drop every cell on a
row of `R` and move every other cell down by the number of `R`-rows
strictly below it. -/
def cascade (R : List Int) (f : List Cell) : List Cell :=
  f.filterMap fun c =>
    if c.y ∈ R then none
    else some { c with y := c.y + (shiftCount R c.y : Int) }

@[simp] theorem cell_eta (c : Cell) : Cell.mk c.x c.y c.color = c := rfl

theorem clearRowStep_cons (c : Cell) (f : List Cell) (row : Int) :
    clearRowStep (c :: f) row =
      if c.y = row then clearRowStep f row
      else (if c.y > row then c else { c with y := c.y + 1 }) :: clearRowStep f row := by
  by_cases h : c.y = row <;> simp [clearRowStep, List.filter_cons, h]

theorem cascade_cons (R : List Int) (c : Cell) (f : List Cell) :
    cascade R (c :: f) =
      if c.y ∈ R then cascade R f
      else { c with y := c.y + (shiftCount R c.y : Int) } :: cascade R f := by
  by_cases h : c.y ∈ R <;> simp [cascade, List.filterMap_cons, h]

theorem cascade_nil_rows (f : List Cell) : cascade [] f = f := by
  induction f with
  | nil => rfl
  | cons c f ih => simp [cascade_cons, shiftCount, ih]

theorem shiftCount_cons (r : Int) (R : List Int) (y : Int) :
    shiftCount (r :: R) y = (if y < r then 1 else 0) + shiftCount R y := by
  by_cases h : y < r <;> simp [shiftCount, List.filter_cons, h, Nat.add_comm]

theorem shiftCount_eq_length (R : List Int) (y : Int) (h : ∀ r ∈ R, y < r) :
    shiftCount R y = R.length := by
  unfold shiftCount
  rw [List.filter_eq_self.mpr fun r hr => decide_eq_true (h r hr)]

theorem shiftCount_congr_succ (R : List Int) (y : Int) (h : ∀ r ∈ R, y + 1 < r) :
    shiftCount R (y + 1) = shiftCount R y := by
  unfold shiftCount
  exact congrArg List.length <| List.filter_congr fun r hr => by
    have := h r hr
    simp only [decide_eq_decide]
    omega

theorem shiftCount_split (R : List Int) (y : Int) :
    y ∉ R → R.length = shiftCount R y + (R.filter fun r => decide (r < y)).length := by
  induction R with
  | nil => intro _; simp [shiftCount]
  | cons r R ih =>
    intro h
    have hne : r ≠ y := fun hry => h (hry ▸ List.mem_cons_self r R)
    have hR := ih fun hy => h (List.mem_cons_of_mem r hy)
    rw [shiftCount_cons]
    rcases lt_trichotomy y r with hlt | heq | hgt
    · have h2 : decide (r < y) = false := by simp; omega
      simp only [List.filter_cons, h2, List.length_cons, if_pos hlt,
        Bool.false_eq_true, if_false]
      omega
    · exact absurd heq.symm hne
    · have h2 : decide (r < y) = true := by simp; omega
      simp only [List.filter_cons, h2, List.length_cons,
        if_neg (show ¬ y < r by omega), if_true]
      omega

/-- A strictly increasing list of integers confined to the open interval
`(a, b)` has at most `b - a - 1` elements (or is empty). -/
theorem sorted_interval_length (L : List Int) (a b : Int)
    (hs : L.Pairwise (· < ·)) (hb : ∀ r ∈ L, a < r ∧ r < b) :
    (L.length : Int) ≤ b - a - 1 ∨ L.length = 0 := by
  induction L generalizing a with
  | nil => right; rfl
  | cons x L ih =>
    rw [List.pairwise_cons] at hs
    have hx := hb x (List.mem_cons_self x L)
    have := ih x hs.2 fun r hr => ⟨hs.1 r hr, (hb r (List.mem_cons_of_mem x hr)).2⟩
    left
    simp only [List.length_cons]
    push_cast
    rcases this with hbd | hz
    · omega
    · rw [hz]; push_cast; omega

theorem countRow_cons (c : Cell) (f : List Cell) (r : Int) :
    countRow (c :: f) r = countRow f r + if c.y = r then 1 else 0 := by
  by_cases h : c.y = r <;> simp [countRow, List.filter_cons, h]

/-- Clearing a row does not change the content of any row strictly below
it: dropped cells were on the cleared row and shifted cells land at or
above it. -/
theorem countRow_clearRowStep_gt (f : List Cell) (r ρ : Int) (h : r < ρ) :
    countRow (clearRowStep f r) ρ = countRow f ρ := by
  induction f with
  | nil => rfl
  | cons c f ih =>
    rw [clearRowStep_cons, countRow_cons]
    by_cases h1 : c.y = r
    · rw [if_pos h1, ih, if_neg (show ¬ c.y = ρ by omega)]
      omega
    · rw [if_neg h1]
      by_cases h2 : c.y > r
      · rw [if_pos h2, countRow_cons, ih]
      · rw [if_neg h2, countRow_cons, ih,
          if_neg (show ¬ (Cell.mk c.x (c.y + 1) c.color).y = ρ by simp; omega),
          if_neg (show ¬ c.y = ρ by omega)]

/-- Clearing the topmost row of a batch first: prepending row `r` to a
batch of rows all strictly below it is the same as clearing `r` and then
cascading the rest. -/
theorem cascade_cons_clear (R : List Int) (r : Int) (f : List Cell)
    (hall : ∀ ρ ∈ R, r < ρ) :
    cascade (r :: R) f = cascade R (clearRowStep f r) := by
  induction f with
  | nil => simp [cascade, clearRowStep]
  | cons c f ih =>
    rw [cascade_cons, clearRowStep_cons]
    by_cases h1 : c.y = r
    · rw [if_pos (show c.y ∈ r :: R from h1 ▸ List.mem_cons_self r R), if_pos h1]
      exact ih
    · rw [if_neg h1]
      by_cases h2 : c.y ∈ R
      · have hgt : r < c.y := hall _ h2
        rw [if_pos (List.mem_cons_of_mem r h2), if_pos (show c.y > r from hgt),
          cascade_cons, if_pos h2]
        exact ih
      · have hmem : c.y ∉ r :: R := by
          rw [List.mem_cons]; push_neg; exact ⟨h1, h2⟩
        rw [if_neg hmem]
        by_cases h3 : c.y > r
        · rw [if_pos h3, cascade_cons, if_neg h2, ih]
          have hy : c.y + (shiftCount (r :: R) c.y : Int) =
              c.y + (shiftCount R c.y : Int) := by
            rw [shiftCount_cons, if_neg (show ¬ c.y < r by omega)]
            push_cast
            ring
          rw [hy]
        · have hlt : c.y < r := by omega
          rw [if_neg h3, cascade_cons]
          have hnm : (Cell.mk c.x (c.y + 1) c.color).y ∉ R := by
            intro hm
            have := hall _ hm
            simp at this
            omega
          rw [if_neg hnm, ih]
          have hcsucc := shiftCount_congr_succ R c.y
            (fun ρ hρ => by have := hall ρ hρ; omega)
          simp only [shiftCount_cons, if_pos hlt, hcsucc]
          congr 1
          simp only [Cell.mk.injEq, and_true, true_and]
          push_cast
          ring

/-- Clearing the bottommost row of a batch last: prepending row `r` to a
batch of rows all strictly below it is also the same as cascading the
batch first and then clearing `r` at its shifted position `r + |R|`. -/
theorem cascade_cons_snoc (R : List Int) (r : Int) (f : List Cell)
    (hs : R.Pairwise (· < ·)) (hall : ∀ ρ ∈ R, r < ρ) :
    cascade (r :: R) f = clearRowStep (cascade R f) (r + R.length) := by
  induction f with
  | nil => simp [cascade, clearRowStep]
  | cons c f ih =>
    rw [cascade_cons, cascade_cons]
    by_cases h1 : c.y = r
    · rw [if_pos (show c.y ∈ r :: R from h1 ▸ List.mem_cons_self r R),
        if_neg (show c.y ∉ R from fun hm => by have := hall _ hm; omega),
        clearRowStep_cons]
      have hy : (Cell.mk c.x (c.y + (shiftCount R c.y : Int)) c.color).y =
          r + (R.length : Int) := by
        show c.y + (shiftCount R c.y : Int) = r + (R.length : Int)
        rw [h1, shiftCount_eq_length R r hall]
      rw [if_pos hy]
      exact ih
    · by_cases h2 : c.y ∈ R
      · rw [if_pos (List.mem_cons_of_mem r h2), if_pos h2]
        exact ih
      · have hmem : c.y ∉ r :: R := by rw [List.mem_cons]; push_neg; exact ⟨h1, h2⟩
        rw [if_neg hmem, if_neg h2, clearRowStep_cons]
        by_cases h3 : r < c.y
        · have hsplit := shiftCount_split R c.y h2
          have hlow := sorted_interval_length (R.filter fun ρ => decide (ρ < c.y))
            r c.y (hs.filter _)
            (fun ρ hρ => by
              rw [List.mem_filter] at hρ
              exact ⟨hall ρ hρ.1, of_decide_eq_true hρ.2⟩)
          have hgt : (Cell.mk c.x (c.y + (shiftCount R c.y : Int)) c.color).y >
              r + (R.length : Int) := by
            show c.y + (shiftCount R c.y : Int) > r + (R.length : Int)
            omega
          rw [if_neg (show ¬ (Cell.mk c.x (c.y + (shiftCount R c.y : Int)) c.color).y =
              r + (R.length : Int) by omega),
            if_pos hgt]
          have hsc : shiftCount (r :: R) c.y = shiftCount R c.y := by
            rw [shiftCount_cons, if_neg (show ¬ c.y < r by omega)]
            omega
          rw [hsc, ih]
        · have hlt : c.y < r := by omega
          have hle : shiftCount R c.y ≤ R.length := List.length_filter_le _ _
          have hy2 : (Cell.mk c.x (c.y + (shiftCount R c.y : Int)) c.color).y =
              c.y + (shiftCount R c.y : Int) := rfl
          rw [if_neg (show ¬ (Cell.mk c.x (c.y + (shiftCount R c.y : Int)) c.color).y =
              r + (R.length : Int) by rw [hy2]; omega),
            if_neg (show ¬ (Cell.mk c.x (c.y + (shiftCount R c.y : Int)) c.color).y >
              r + (R.length : Int) by rw [hy2]; omega),
            ih]
          congr 1
          simp only [Cell.mk.injEq, shiftCount_cons, if_pos hlt, and_true, true_and]
          push_cast
          ring

/-- The clearing loop of `destroyFilledRows`, run over any strictly
increasing row list, equals one batch `cascade` of the rows that are full
in the field the loop started from (even though the loop re-counts each
row in its current field, no shifted cell ever reaches a row that is
still to be scanned). -/
theorem destroyRowsLoop_eq_cascade (rs : List Int) :
    ∀ (f : List Cell) (d : Nat), rs.Pairwise (· < ·) →
      destroyRowsLoop rs f d =
        (cascade (rs.filter fun r => decide (countRow f r = GRID_WIDTH)) f,
          d + (rs.filter fun r => decide (countRow f r = GRID_WIDTH)).length) := by
  induction rs with
  | nil => intro f d _; simp [destroyRowsLoop, cascade_nil_rows]
  | cons r rs ih =>
    intro f d hp
    rw [List.pairwise_cons] at hp
    by_cases hfull : countRow f r = GRID_WIDTH
    · rw [show destroyRowsLoop (r :: rs) f d =
          destroyRowsLoop rs (clearRowStep f r) (d + 1) by
            simp [destroyRowsLoop, hfull]]
      rw [ih (clearRowStep f r) (d + 1) hp.2]
      rw [List.filter_congr fun ρ hρ => by
        rw [countRow_clearRowStep_gt f r ρ (hp.1 ρ hρ)]]
      rw [show (r :: rs).filter (fun ρ => decide (countRow f ρ = GRID_WIDTH)) =
          r :: rs.filter fun ρ => decide (countRow f ρ = GRID_WIDTH) by
            simp [List.filter_cons, hfull]]
      rw [cascade_cons_clear _ r f
        fun ρ hρ => hp.1 ρ (List.mem_of_mem_filter hρ)]
      refine Prod.ext rfl ?_
      simp only [List.length_cons]
      omega
    · rw [show destroyRowsLoop (r :: rs) f d = destroyRowsLoop rs f d by
          simp [destroyRowsLoop, hfull]]
      rw [ih f d hp.2]
      simp [List.filter_cons, hfull]

theorem specClearRowsFrom_append (D : List Int) (r : Int) :
    ∀ (k : Int) (f : List Cell),
      specClearRowsFrom (D ++ [r]) k f =
        clearRowStep (specClearRowsFrom D k f) (r + k + D.length) := by
  induction D with
  | nil =>
    intro k f
    simp [specClearRowsFrom]
  | cons d D ih =>
    intro k f
    rw [List.cons_append,
      show specClearRowsFrom (d :: (D ++ [r])) k f =
        specClearRowsFrom (D ++ [r]) (k + 1) (clearRowStep f (d + k)) from rfl,
      ih,
      show specClearRowsFrom (d :: D) k f =
        specClearRowsFrom D (k + 1) (clearRowStep f (d + k)) from rfl]
    congr 1
    push_cast [List.length_cons]
    ring

/-- The reference clearing pass — bottommost identified row first, each
cleared at its shifted position — equals the batch `cascade` of the
identified rows. -/
theorem specClearRows_reverse_eq_cascade (R : List Int) :
    ∀ f : List Cell, R.Pairwise (· < ·) →
      specClearRowsFrom R.reverse 0 f = cascade R f := by
  induction R with
  | nil => intro f _; simp [specClearRowsFrom, cascade_nil_rows]
  | cons r R ih =>
    intro f hs
    rw [List.pairwise_cons] at hs
    rw [List.reverse_cons, specClearRowsFrom_append, ih f hs.2,
      List.length_reverse, cascade_cons_snoc R r f hs.2 hs.1]
    congr 1
    ring

theorem allY_pairwise : allY.Pairwise (· < ·) := by decide

/-- The full-row filter over `allY` is itself strictly increasing. -/
theorem specFullRows_pairwise (f : List Cell) :
    (specFullRows f).Pairwise (· < ·) := allY_pairwise.filter _

theorem clearRowStep_eq_filterMap (f : List Cell) (row : Int) :
    clearRowStep f row = f.filterMap fun c =>
      if c.y = row then none
      else if c.y < row then some { c with y := c.y + 1 } else some c := by
  induction f with
  | nil => rfl
  | cons c f ih =>
    rw [clearRowStep_cons, List.filterMap_cons]
    by_cases h1 : c.y = row
    · simp only [if_pos h1, ih]
    · by_cases h2 : c.y < row
      · simp only [if_neg h1, if_pos h2, if_neg (show ¬ c.y > row by omega), ih]
      · simp only [if_neg h1, if_neg h2, if_pos (show c.y > row by omega), ih]

/-- C1: in `destroyFilledRows`, when the scan reaches a full row `row`
(its cell count equals `GRID_WIDTH`), that iteration removes exactly the
cells with `y = row`, increases by one the `y` of every remaining cell
with `y < row`, and leaves every cell with `y > row` unchanged, before
the loop continues with the remaining rows and an incremented
destroyed-row counter. -/
theorem c1_full_row_clearing (f : List Cell) (row : Int) (rest : List Int)
    (d : Nat) (hfull : countRow f row = GRID_WIDTH) :
    destroyRowsLoop (row :: rest) f d =
      destroyRowsLoop rest
        (f.filterMap fun c =>
          if c.y = row then none
          else if c.y < row then some { c with y := c.y + 1 } else some c)
        (d + 1) := by
  rw [show destroyRowsLoop (row :: rest) f d =
      destroyRowsLoop rest (clearRowStep f row) (d + 1) by
        simp [destroyRowsLoop, hfull]]
  rw [clearRowStep_eq_filterMap]

/-- A concrete field: a full row at `y = 1`, one cell above it at
`(0, 0)` and one cell below it at `(0, 2)`. -/
def fullRow1Field : List Cell :=
  ((List.range 10).map fun i => Cell.mk (i : Int) 1 "White") ++
    [Cell.mk 0 0 "White", Cell.mk 0 2 "White"]

theorem c1_full_row_clearing_witness :
    countRow fullRow1Field 1 = GRID_WIDTH ∧
    destroyRowsLoop [1] fullRow1Field 0 =
      destroyRowsLoop []
        (fullRow1Field.filterMap fun c =>
          if c.y = 1 then none
          else if c.y < 1 then some { c with y := c.y + 1 } else some c)
        (0 + 1) :=
  ⟨by decide, c1_full_row_clearing fullRow1Field 1 [] 0 (by decide)⟩

/-- C3: `destroyFilledRows` computes, for every field, the same final
field and the same destroyed-row count as the spec's reference
algorithm `specDestroyFilledRows` (one identification pass over the
pre-clear field, then clearing the identified rows bottommost first). -/
theorem c3_destroy_refines_spec (s : GameState) (f : List Cell) :
    (destroyFilledRows s).filledField = (specDestroyFilledRows s.filledField).1 ∧
    destroyRowsLoop allY f 0 = specDestroyFilledRows f := by
  have key : ∀ g : List Cell, destroyRowsLoop allY g 0 = specDestroyFilledRows g := by
    intro g
    rw [destroyRowsLoop_eq_cascade allY g 0 allY_pairwise]
    refine Prod.ext ?_ ?_
    · show cascade (allY.filter fun r => decide (countRow g r = GRID_WIDTH)) g =
        specClearRowsFrom (specFullRows g).reverse 0 g
      rw [specClearRows_reverse_eq_cascade (specFullRows g) g (specFullRows_pairwise g)]
      rfl
    · show 0 + (allY.filter fun r => decide (countRow g r = GRID_WIDTH)).length =
        (specFullRows g).length
      rw [Nat.zero_add]
      rfl
  refine ⟨?_, key f⟩
  show (destroyRowsLoop allY s.filledField 0).1 = (specDestroyFilledRows s.filledField).1
  rw [key s.filledField]

/-- The score table of `addScore` never subtracts. -/
theorem scoreDelta_nonneg (n : Nat) : 0 ≤ scoreDelta n := by
  rcases n with _ | _ | _ | _ | _ | m <;> simp [scoreDelta]

/-- C2: the score change of `destroyFilledRows` is exactly the table
0→0, 1→40, 2→100, 3→300, 4→1200 applied to the number of rows the
clearing loop destroyed, and the score never decreases. -/
theorem c2_score_table (s : GameState) (d : Nat) :
    (destroyFilledRows s).score =
      s.score + scoreDelta (destroyRowsLoop allY s.filledField 0).2 ∧
    scoreDelta 0 = 0 ∧ scoreDelta 1 = 40 ∧ scoreDelta 2 = 100 ∧
    scoreDelta 3 = 300 ∧ scoreDelta 4 = 1200 ∧
    0 ≤ scoreDelta d ∧ s.score ≤ (destroyFilledRows s).score := by
  refine ⟨rfl, rfl, rfl, rfl, rfl, rfl, scoreDelta_nonneg d, ?_⟩
  have h := scoreDelta_nonneg (destroyRowsLoop allY s.filledField 0).2
  show s.score ≤ s.score + scoreDelta (destroyRowsLoop allY s.filledField 0).2
  omega

/-- A game state with arbitrary but fixed contents, used to build
concrete scenarios; the piece is an O-piece with a single rotation
state. -/
def baseState : GameState where
  field := []
  filledField := []
  currentTetromino := [[⟨0, 0⟩, ⟨1, 0⟩, ⟨0, 1⟩, ⟨1, 1⟩]]
  currentTetrominoPosition := ⟨4, -1⟩
  currentTetrominoRotation := 0
  currentColor := "Cian"
  nextTetromino := [[⟨0, 0⟩, ⟨1, 0⟩, ⟨0, 1⟩, ⟨1, 1⟩]]
  nextColor := "Orange"
  score := 0
  pause := false
  isColorOn := true
  gameOver := false
  isLastMove := false
  isFirstMove := false

/-- C9 counterexample: on the concrete field with full row 1, a cell at
`(0, 0)` and a cell at `(0, 2)`, `destroyFilledRows` moves the `y < 1`
cell down to `(0, 1)` and leaves the `y > 1` cell at `(0, 2)` — not, as
claimed, the other way around (which would give `(0, 0)` and `(0, 3)`). -/
theorem c9_counterexample :
    (destroyFilledRows { baseState with filledField := fullRow1Field }).filledField =
      [Cell.mk 0 1 "White", Cell.mk 0 2 "White"] ∧
    (destroyFilledRows { baseState with filledField := fullRow1Field }).filledField ≠
      [Cell.mk 0 0 "White", Cell.mk 0 3 "White"] := by
  constructor
  · decide
  · decide

/-- C9 (amended): when `destroyFilledRows` clears a full row `row`, the
cells with `y < row` (above the cleared row) are the ones shifted down
into the gap (`y` incremented by one), while the cells with `y > row`
(below it) stay in place. -/
theorem c9_amended_shift_direction (f : List Cell) (row : Int) (c : Cell)
    (hc : c ∈ f) :
    (row < c.y → c ∈ clearRowStep f row) ∧
    (c.y < row → { c with y := c.y + 1 } ∈ clearRowStep f row) := by
  constructor
  · intro h
    unfold clearRowStep
    rw [List.mem_map]
    refine ⟨c, ?_, if_pos h⟩
    rw [List.mem_filter]
    refine ⟨hc, ?_⟩
    simp only [Bool.not_eq_eq_eq_not, Bool.not_true, decide_eq_false_iff_not]
    omega
  · intro h
    unfold clearRowStep
    rw [List.mem_map]
    refine ⟨c, ?_, if_neg (by omega)⟩
    rw [List.mem_filter]
    refine ⟨hc, ?_⟩
    simp only [Bool.not_eq_eq_eq_not, Bool.not_true, decide_eq_false_iff_not]
    omega

theorem c9_amended_witness :
    Cell.mk 0 0 "White" ∈ fullRow1Field ∧ (0 : Int) < 1 ∧
    Cell.mk 0 1 "White" ∈ clearRowStep fullRow1Field 1 :=
  ⟨by decide, by decide,
    (c9_amended_shift_direction fullRow1Field 1 (Cell.mk 0 0 "White")
      (by decide)).2 (by decide)⟩

/-- The piece cells as they are merged into the field by `saveTetromino`
(absolute coordinates tagged with the current color). -/
def lockedPieceCells (s : GameState) : List Cell :=
  (currentTetrominoAbsoluteCoords s).map fun p => Cell.mk p.x p.y s.currentColor

/-- The descend check never reads the render field. -/
theorem checkCanPull_field_invariant (s : GameState) (F : List Cell) :
    checkCanPullTetromino { s with field := F } = checkCanPullTetromino s := rfl

/-- Tick shape: when paused or over, a tick changes nothing. -/
theorem game_frozen (s : GameState) (rnd : Tetromino × Color)
    (h : s.pause = true ∨ s.gameOver = true) : game rnd s = s := by
  unfold game
  rcases h with h | h <;> rw [h] <;> simp

/-- Tick shape: first grace tick — the piece cannot descend, has already
moved, and the pending-lock flag is still clear: the tick only renders
and sets the pending-lock flag. -/
theorem game_grace_shape (s : GameState) (rnd : Tetromino × Color)
    (hp : s.pause = false) (hg : s.gameOver = false)
    (hcp : checkCanPullTetromino s = false)
    (hlm : s.isLastMove = false) (hfm : s.isFirstMove = false) :
    game rnd s = { s with
      field := (s.filledField ++ lockedPieceCells s)
      isLastMove := true } := by
  simp only [game]
  rw [show (s.pause || s.gameOver) = false by rw [hp, hg]; rfl,
    if_neg Bool.false_ne_true,
    checkCanPull_field_invariant, hcp,
    if_neg Bool.false_ne_true]
  simp only [hfm, hlm, Bool.false_eq_true, if_false, Bool.not_false, if_true]
  rfl

/-- Tick shape: lock tick — the piece cannot descend and the
pending-lock flag is set: the tick merges, clears rows, scores, and
spawns the queued piece. -/
theorem game_lock_shape (s : GameState) (rnd : Tetromino × Color)
    (hp : s.pause = false) (hg : s.gameOver = false)
    (hcp : checkCanPullTetromino s = false)
    (hlm : s.isLastMove = true) (hfm : s.isFirstMove = false) :
    game rnd s = generateNextTetromino rnd
      { destroyFilledRows (saveTetromino
          { s with
            field := (s.filledField ++ lockedPieceCells s)
            isLastMove := false }) with isFirstMove := true } := by
  simp only [game]
  rw [show (s.pause || s.gameOver) = false by rw [hp, hg]; rfl,
    if_neg Bool.false_ne_true,
    checkCanPull_field_invariant, hcp,
    if_neg Bool.false_ne_true]
  simp only [hfm, hlm, Bool.false_eq_true, if_false, Bool.not_true, if_true]
  rfl

/-- Tick shape: a spawned piece (first-move flag set) that cannot descend
sends the game into the game-over state (pause is set too). -/
theorem game_spawn_gameOver (s : GameState) (rnd : Tetromino × Color)
    (hp : s.pause = false) (hg : s.gameOver = false)
    (hfm : s.isFirstMove = true) (hcp : checkCanPullTetromino s = false) :
    (game rnd s).gameOver = true ∧ (game rnd s).pause = true := by
  simp only [game]
  rw [show (s.pause || s.gameOver) = false by rw [hp, hg]; rfl,
    if_neg Bool.false_ne_true,
    checkCanPull_field_invariant, hcp,
    if_neg Bool.false_ne_true]
  simp only [hfm, if_true]
  by_cases hlm : s.isLastMove = true
  · simp only [hlm, Bool.not_true, Bool.false_eq_true, if_false]
    constructor <;> first | rfl | trivial
  · rw [Bool.not_eq_true] at hlm
    simp only [hlm, Bool.not_false, if_true]
    constructor <;> first | rfl | trivial

/-- Concrete state for the C7 counterexample: a freshly spawned
horizontal piece whose spawn pose overlaps the single filled cell at
`(4, 0)` while the row below it is free. -/
def overlapSpawnState : GameState :=
  { baseState with
    currentTetromino := [[⟨0, 1⟩, ⟨1, 1⟩, ⟨2, 1⟩, ⟨3, 1⟩]]
    filledField := [Cell.mk 4 0 "White"]
    isFirstMove := true }

/-- C7 counterexample: the spawn pose of `overlapSpawnState` overlaps the
field, yet the logic tick does not transition to game over (the piece
simply descends), because the code only checks inability to descend. -/
theorem c7_counterexample :
    ((currentTetrominoAbsoluteCoords overlapSpawnState).any fun p =>
        overlapSpawnState.filledField.any fun f =>
          decide (p.x = f.x) && decide (p.y = f.y)) = true ∧
    overlapSpawnState.isFirstMove = true ∧
    overlapSpawnState.gameOver = false ∧
    (game ([[⟨0, 0⟩]], "White") overlapSpawnState).gameOver = false := by
  refine ⟨by decide, rfl, rfl, by decide⟩

/-- C7 (amended): a spawned piece that cannot descend on its very first
tick transitions the game to GameOver (overlap alone, with descent still
possible, does not); and once `gameOver` is set, a logic tick returns the
state unchanged — field, piece, and score are all frozen until an
explicit restart. -/
theorem c7_gameover_trigger_and_freeze (s t : GameState)
    (rnd rnd2 : Tetromino × Color)
    (hp : s.pause = false) (hg : s.gameOver = false)
    (hfm : s.isFirstMove = true) (hcp : checkCanPullTetromino s = false)
    (ht : t.gameOver = true) :
    (game rnd s).gameOver = true ∧ (game rnd s).pause = true ∧
    game rnd2 t = t := by
  obtain ⟨h1, h2⟩ := game_spawn_gameOver s rnd hp hg hfm hcp
  exact ⟨h1, h2, game_frozen t rnd2 (Or.inr ht)⟩

/-- A concrete state about to lock: an O-piece resting on the floor with
the pending-lock flag still clear. -/
def restingPieceState : GameState :=
  { baseState with currentTetrominoPosition := ⟨4, 18⟩ }

theorem c7_gameover_witness :
    (game ([[⟨0, 0⟩]], "White")
        { restingPieceState with isFirstMove := true }).gameOver = true ∧
    (game ([[⟨0, 0⟩]], "White")
        { restingPieceState with isFirstMove := true }).pause = true ∧
    game ([[⟨0, 0⟩]], "White") { baseState with gameOver := true } =
      { baseState with gameOver := true } :=
  c7_gameover_trigger_and_freeze
    { restingPieceState with isFirstMove := true }
    { baseState with gameOver := true }
    ([[⟨0, 0⟩]], "White") ([[⟨0, 0⟩]], "White")
    rfl rfl rfl (by decide) rfl

/-- C6: grace tick.  If on a tick the piece (which has already moved and
has no pending lock yet) cannot descend, that tick does not merge it into
the field — it only sets the pending-lock flag; if on the next tick the
piece still cannot descend and nothing moved it in between, that tick
merges it: the new filled field is the old field plus the piece cells,
with the row-clearing pass applied. -/
theorem c6_grace_tick (s : GameState) (rnd rnd2 : Tetromino × Color)
    (hp : s.pause = false) (hg : s.gameOver = false)
    (hcp : checkCanPullTetromino s = false)
    (hlm : s.isLastMove = false) (hfm : s.isFirstMove = false) :
    (game rnd s).filledField = s.filledField ∧
    (game rnd s).isLastMove = true ∧
    (game rnd2 (game rnd s)).filledField =
      (destroyRowsLoop allY (s.filledField ++ lockedPieceCells s) 0).1 := by
  have h1 := game_grace_shape s rnd hp hg hcp hlm hfm
  refine ⟨by rw [h1], by rw [h1], ?_⟩
  rw [h1]
  have h2 := game_lock_shape
    { s with
      field := (s.filledField ++ lockedPieceCells s)
      isLastMove := true }
    rnd2 hp hg hcp rfl hfm
  rw [h2]
  rfl

theorem c6_grace_tick_witness :
    (game ([[⟨0, 0⟩]], "White") restingPieceState).filledField =
      restingPieceState.filledField ∧
    (game ([[⟨0, 0⟩]], "White") restingPieceState).isLastMove = true ∧
    (game ([[⟨0, 0⟩]], "Orange")
        (game ([[⟨0, 0⟩]], "White") restingPieceState)).filledField =
      (destroyRowsLoop allY
        (restingPieceState.filledField ++ lockedPieceCells restingPieceState) 0).1 :=
  c6_grace_tick restingPieceState ([[⟨0, 0⟩]], "White") ([[⟨0, 0⟩]], "Orange")
    rfl rfl (by decide) rfl rfl

/-- C10: each elementary movement operation touches only its own
component of the active-piece state: a strafe can change only the `x` of
the position, a pull only the `y`, a rotation only the rotation index;
none of them changes the filled field, the score, the piece shape, or
the piece color. -/
theorem c10_movement_frame (s : GameState) (d : Direction) :
    ((strafeTetromino d s).currentTetrominoPosition.y =
        s.currentTetrominoPosition.y ∧
      (strafeTetromino d s).currentTetrominoRotation =
        s.currentTetrominoRotation ∧
      (strafeTetromino d s).currentTetromino = s.currentTetromino ∧
      (strafeTetromino d s).currentColor = s.currentColor ∧
      (strafeTetromino d s).filledField = s.filledField ∧
      (strafeTetromino d s).score = s.score) ∧
    ((pullTetromino s).currentTetrominoPosition.x =
        s.currentTetrominoPosition.x ∧
      (pullTetromino s).currentTetrominoRotation = s.currentTetrominoRotation ∧
      (pullTetromino s).currentTetromino = s.currentTetromino ∧
      (pullTetromino s).currentColor = s.currentColor ∧
      (pullTetromino s).filledField = s.filledField ∧
      (pullTetromino s).score = s.score) ∧
    ((rotateTetromino s).currentTetrominoPosition =
        s.currentTetrominoPosition ∧
      (rotateTetromino s).currentTetromino = s.currentTetromino ∧
      (rotateTetromino s).currentColor = s.currentColor ∧
      (rotateTetromino s).filledField = s.filledField ∧
      (rotateTetromino s).score = s.score) := by
  refine ⟨?_, ?_, ?_⟩
  · unfold strafeTetromino
    split <;> simp
  · exact ⟨rfl, rfl, rfl, rfl, rfl, rfl⟩
  · unfold rotateTetromino
    split <;> simp

/-- C8: while the game is paused or over, the intent handlers leave the
state unchanged.  The hypothesis `gameOver → pause` is the invariant the
engine maintains (the game-over transition sets both flags and
`togglePause` refuses to unpause an ended game), under which "paused or
over" always means the pause flag is set — which is the only flag the
handlers test. -/
theorem c8_intents_noop_paused_or_over (s : GameState) (d : Direction)
    (hinv : s.gameOver = true → s.pause = true)
    (h : s.pause = true ∨ s.gameOver = true) :
    strafeTetromino d s = s ∧ rotateTetromino s = s ∧
    pullFullTetromino s = s := by
  have hp : s.pause = true := by
    rcases h with h | h
    · exact h
    · exact hinv h
  refine ⟨?_, ?_, ?_⟩
  · unfold strafeTetromino
    rw [hp]
    simp
  · unfold rotateTetromino
    rw [hp]
    simp
  · unfold pullFullTetromino
    rw [hp]
    simp

theorem c8_intents_noop_witness :
    strafeTetromino Direction.left { baseState with pause := true } =
      { baseState with pause := true } ∧
    rotateTetromino { baseState with pause := true } =
      { baseState with pause := true } ∧
    pullFullTetromino { baseState with pause := true } =
      { baseState with pause := true } :=
  c8_intents_noop_paused_or_over { baseState with pause := true }
    Direction.left (fun _ => rfl) (Or.inl rfl)

/-- The hard-drop loop only moves the piece: every other component of
the state passes through unchanged. -/
theorem pullFullLoop_frame (s : GameState) :
    (pullFullLoop s).filledField = s.filledField ∧
    (pullFullLoop s).pause = s.pause ∧
    (pullFullLoop s).gameOver = s.gameOver ∧
    (pullFullLoop s).score = s.score := by
  induction s using pullFullLoop.induct with
  | case1 s h ih =>
    rw [pullFullLoop, dif_pos h]
    exact ih
  | case2 s h =>
    rw [pullFullLoop, dif_neg h]
    exact ⟨rfl, rfl, rfl, rfl⟩

/-- The engine invariant behind C8: every operation preserves
`gameOver → pause`, and a tick establishes it when it sets `gameOver`. -/
theorem gameOver_imp_pause_preserved (s : GameState) (d : Direction)
    (rnd : Tetromino × Color) (hinv : s.gameOver = true → s.pause = true) :
    ((game rnd s).gameOver = true → (game rnd s).pause = true) ∧
    ((togglePause s).gameOver = true → (togglePause s).pause = true) ∧
    ((strafeTetromino d s).gameOver = true →
      (strafeTetromino d s).pause = true) ∧
    ((rotateTetromino s).gameOver = true → (rotateTetromino s).pause = true) ∧
    ((pullFullTetromino s).gameOver = true →
      (pullFullTetromino s).pause = true) := by
  refine ⟨?_, ?_, ?_, ?_, ?_⟩
  · simp only [game]
    split
    · exact hinv
    · split
      · exact hinv
      · split <;> split <;> intro h <;> first | rfl | exact hinv h
  · unfold togglePause
    split
    · exact hinv
    · intro h
      simp_all
  · unfold strafeTetromino
    split
    · exact hinv
    · exact hinv
  · unfold rotateTetromino
    split
    · exact hinv
    · exact hinv
  · unfold pullFullTetromino
    split
    · exact hinv
    · intro h
      have hf := pullFullLoop_frame { s with isFirstMove := false }
      rw [hf.2.2.1] at h
      rw [hf.2.1]
      exact hinv h

theorem bool_eq_of_iff {a b : Bool} (h : a = true ↔ b = true) : a = b := by
  cases a <;> cases b <;> simp_all

/-- Modelled from the spec: `isLegal(placement, field)` of §4.2 — every
absolute cell satisfies `0 ≤ x < W`, `y < H` (top unbounded), and
coincides with no field cell. -/
def specIsLegal (cells : List Point) (field : List Cell) : Bool :=
  cells.all fun p =>
    decide (0 ≤ p.x) && decide (p.x < (GRID_WIDTH : Int)) &&
      decide (p.y < (GRID_HEIGHT : Int)) &&
      ! field.any fun f => decide (p.x = f.x) && decide (f.y = p.y)

/-- A piece parked far outside the left wall (reachable only as a raw
state, not in play): the descend check ignores the x bounds, `isLegal`
does not. -/
def outOfBoundsState : GameState :=
  { baseState with currentTetrominoPosition := ⟨-5, 3⟩ }

/-- C4 counterexample: on `outOfBoundsState` the code's descend check
accepts the move although `isLegal` rejects the translated placement —
the movement checks only test the bounds the move can newly violate. -/
theorem c4_counterexample :
    checkCanPullTetromino outOfBoundsState = true ∧
    specIsLegal ((currentTetrominoAbsoluteCoords outOfBoundsState).map
      fun p => Point.mk p.x (p.y + 1)) outOfBoundsState.filledField = false := by
  refine ⟨by decide, by decide⟩

/-- C4 (amended): provided every cell of the current placement already
lies inside the horizontal bounds and above the floor (`0 ≤ x < W`,
`y < H`), the movement checks coincide with `isLegal` evaluated on the
piece translated one row down / one column left / one column right. -/
theorem c4_checks_are_isLegal (s : GameState)
    (hin : ∀ p ∈ currentTetrominoAbsoluteCoords s,
      0 ≤ p.x ∧ p.x < (GRID_WIDTH : Int) ∧ p.y < (GRID_HEIGHT : Int)) :
    checkCanPullTetromino s =
      specIsLegal ((currentTetrominoAbsoluteCoords s).map
        fun c => Point.mk c.x (c.y + 1)) s.filledField ∧
    checkCanStrafeTetromino Direction.left s =
      specIsLegal ((currentTetrominoAbsoluteCoords s).map
        fun c => Point.mk (c.x - 1) c.y) s.filledField ∧
    checkCanStrafeTetromino Direction.right s =
      specIsLegal ((currentTetrominoAbsoluteCoords s).map
        fun c => Point.mk (c.x + 1) c.y) s.filledField := by
  refine ⟨?_, ?_, ?_⟩
  · apply bool_eq_of_iff
    unfold checkCanPullTetromino specIsLegal
    rw [Bool.not_eq_true', List.any_eq_false, List.all_eq_true]
    constructor
    · intro hL q hq
      have h1 := hL q hq
      simp only [Bool.or_eq_true, decide_eq_true_eq, not_or, not_le,
        Bool.not_eq_true] at h1
      obtain ⟨p, hp, rfl⟩ := List.mem_map.mp hq
      obtain ⟨hx0, hx1, _⟩ := hin p hp
      simp only [Bool.and_eq_true, decide_eq_true_eq, Bool.not_eq_true']
      exact ⟨⟨⟨hx0, hx1⟩, h1.1⟩, h1.2⟩
    · intro hR q hq
      have h1 := hR q hq
      simp only [Bool.and_eq_true, decide_eq_true_eq, Bool.not_eq_true'] at h1
      simp only [Bool.or_eq_true, decide_eq_true_eq, not_or, not_le,
        Bool.not_eq_true]
      exact ⟨h1.1.2, h1.2⟩
  · apply bool_eq_of_iff
    simp only [checkCanStrafeTetromino]
    unfold specIsLegal
    rw [Bool.not_eq_true', List.any_eq_false, List.all_eq_true]
    constructor
    · intro hL q hq
      have h1 := hL q hq
      simp only [Bool.or_eq_true, decide_eq_true_eq, not_or, not_lt,
        Bool.not_eq_true] at h1
      obtain ⟨p, hp, rfl⟩ := List.mem_map.mp hq
      obtain ⟨hx0, hx1, hy⟩ := hin p hp
      simp only [Bool.and_eq_true, decide_eq_true_eq, Bool.not_eq_true']
      refine ⟨⟨⟨h1.1, ?_⟩, ?_⟩, h1.2⟩
      · show p.x - 1 < (GRID_WIDTH : Int)
        omega
      · show p.y < (GRID_HEIGHT : Int)
        omega
    · intro hR q hq
      have h1 := hR q hq
      simp only [Bool.and_eq_true, decide_eq_true_eq, Bool.not_eq_true'] at h1
      simp only [Bool.or_eq_true, decide_eq_true_eq, not_or, not_lt,
        Bool.not_eq_true]
      exact ⟨h1.1.1.1, h1.2⟩
  · apply bool_eq_of_iff
    simp only [checkCanStrafeTetromino]
    unfold specIsLegal
    rw [Bool.not_eq_true', List.any_eq_false, List.all_eq_true]
    constructor
    · intro hL q hq
      have h1 := hL q hq
      simp only [Bool.or_eq_true, decide_eq_true_eq, not_or, not_le,
        Bool.not_eq_true] at h1
      obtain ⟨p, hp, rfl⟩ := List.mem_map.mp hq
      obtain ⟨hx0, hx1, hy⟩ := hin p hp
      simp only [Bool.and_eq_true, decide_eq_true_eq, Bool.not_eq_true']
      refine ⟨⟨⟨?_, h1.1⟩, ?_⟩, h1.2⟩
      · show (0 : Int) ≤ p.x + 1
        omega
      · show p.y < (GRID_HEIGHT : Int)
        omega
    · intro hR q hq
      have h1 := hR q hq
      simp only [Bool.and_eq_true, decide_eq_true_eq, Bool.not_eq_true'] at h1
      simp only [Bool.or_eq_true, decide_eq_true_eq, not_or, not_le,
        Bool.not_eq_true]
      refine ⟨?_, h1.2⟩
      have := h1.1.1.2
      omega

theorem c4_checks_are_isLegal_witness :
    (∀ p ∈ currentTetrominoAbsoluteCoords restingPieceState,
      0 ≤ p.x ∧ p.x < (GRID_WIDTH : Int) ∧ p.y < (GRID_HEIGHT : Int)) ∧
    (checkCanPullTetromino restingPieceState =
      specIsLegal ((currentTetrominoAbsoluteCoords restingPieceState).map
        fun c => Point.mk c.x (c.y + 1)) restingPieceState.filledField ∧
    checkCanStrafeTetromino Direction.left restingPieceState =
      specIsLegal ((currentTetrominoAbsoluteCoords restingPieceState).map
        fun c => Point.mk (c.x - 1) c.y) restingPieceState.filledField ∧
    checkCanStrafeTetromino Direction.right restingPieceState =
      specIsLegal ((currentTetrominoAbsoluteCoords restingPieceState).map
        fun c => Point.mk (c.x + 1) c.y) restingPieceState.filledField) :=
  ⟨by decide, c4_checks_are_isLegal restingPieceState (by decide)⟩

/-- The no-overlap invariant of §3/§8: no two cells of a field share the
same `(x, y)`. -/
def distinctCoords (f : List Cell) : Prop :=
  f.Pairwise fun a b => a.x ≠ b.x ∨ a.y ≠ b.y

instance (f : List Cell) : Decidable (distinctCoords f) :=
  inferInstanceAs (Decidable (f.Pairwise _))

/-- Clearing one row keeps coordinates pairwise distinct: kept cells keep
their coordinates, shifted cells move together, and a shifted cell lands
at or above the cleared row while kept cells are below it. -/
theorem distinctCoords_clearRowStep (f : List Cell) (r : Int)
    (h : distinctCoords f) : distinctCoords (clearRowStep f r) := by
  unfold distinctCoords at *
  unfold clearRowStep
  rw [List.pairwise_map]
  refine List.Pairwise.imp_of_mem ?_ (h.filter _)
  intro a b ha hb hab
  rw [List.mem_filter] at ha hb
  have ha2 : ¬ a.y = r := by
    have := ha.2
    simp only [Bool.not_eq_eq_eq_not, Bool.not_true, decide_eq_false_iff_not] at this
    exact this
  have hb2 : ¬ b.y = r := by
    have := hb.2
    simp only [Bool.not_eq_eq_eq_not, Bool.not_true, decide_eq_false_iff_not] at this
    exact this
  rcases hab with hx | hy
  · refine Or.inl ?_
    split_ifs <;> exact hx
  · refine Or.inr ?_
    split_ifs with h1 h2 h2
    · exact hy
    · show a.y ≠ b.y + 1
      omega
    · show a.y + 1 ≠ b.y
      omega
    · show a.y + 1 ≠ b.y + 1
      omega

/-- The whole clearing loop keeps coordinates pairwise distinct. -/
theorem distinctCoords_destroyRowsLoop (rs : List Int) :
    ∀ (f : List Cell) (d : Nat), distinctCoords f →
      distinctCoords (destroyRowsLoop rs f d).1 := by
  induction rs with
  | nil => intro f d h; exact h
  | cons r rs ih =>
    intro f d h
    simp only [destroyRowsLoop]
    split
    · exact ih f d h
    · exact ih _ _ (distinctCoords_clearRowStep f r h)

theorem enum_fst_pairwise (g : List Bool) :
    g.enum.Pairwise fun a b => a.1 < b.1 := by
  rw [← List.pairwise_map (f := Prod.fst)]
  rw [List.enum_map_fst]
  exact List.pairwise_lt_range _

/-- The cells generated for one pre-fill row have pairwise distinct
columns (they come from distinct indices of the boolean array). -/
theorem fillRowCells_distinct (g : List Bool) (row : Int) (cols : Nat → Color) :
    distinctCoords (fillRowCells g row cols) := by
  unfold fillRowCells distinctCoords
  rw [List.pairwise_map, List.pairwise_map]
  refine ((enum_fst_pairwise g).filter _).imp ?_
  intro a b h
  refine Or.inl ?_
  show (a.1 : Int) ≠ (b.1 : Int)
  omega

theorem fillRowCells_mem_y (g : List Bool) (row : Int) (cols : Nat → Color) :
    ∀ c ∈ fillRowCells g row cols, c.y = row := by
  intro c hc
  unfold fillRowCells at hc
  simp only [List.mem_map] at hc
  obtain ⟨x, _, rfl⟩ := hc
  rfl

theorem fillFieldModel_succ (d : Nat) (gens : Nat → List Bool)
    (cols : Nat → Nat → Color) :
    fillFieldModel (d + 1) gens cols =
      fillFieldModel d gens cols ++
        fillRowCells (gens d) ((GRID_HEIGHT : Int) - 1 - d) (cols d) := by
  unfold fillFieldModel
  rw [List.range_succ, List.foldl_append]
  rfl

theorem fillFieldModel_mem_y (d : Nat) (gens : Nat → List Bool)
    (cols : Nat → Nat → Color) :
    ∀ c ∈ fillFieldModel d gens cols,
      ∃ i : Nat, i < d ∧ c.y = (GRID_HEIGHT : Int) - 1 - i := by
  induction d with
  | zero =>
    intro c hc
    exact absurd hc (by simp [fillFieldModel])
  | succ d ih =>
    intro c hc
    rw [fillFieldModel_succ] at hc
    rcases List.mem_append.mp hc with h | h
    · obtain ⟨i, hi, hy⟩ := ih c h
      exact ⟨i, Nat.lt_succ_of_lt hi, hy⟩
    · exact ⟨d, Nat.lt_succ_self d, fillRowCells_mem_y _ _ _ c h⟩

/-- The difficulty pre-fill never duplicates a coordinate: each row's
cells have distinct columns, and distinct pre-filled rows have distinct
`y`. -/
theorem fillFieldModel_distinct (d : Nat) (gens : Nat → List Bool)
    (cols : Nat → Nat → Color) : distinctCoords (fillFieldModel d gens cols) := by
  induction d with
  | zero => simp [fillFieldModel, distinctCoords]
  | succ d ih =>
    rw [fillFieldModel_succ]
    unfold distinctCoords at *
    rw [List.pairwise_append]
    refine ⟨ih, fillRowCells_distinct _ _ _, ?_⟩
    intro a ha b hb
    obtain ⟨i, hi, hya⟩ := fillFieldModel_mem_y d gens cols a ha
    have hyb := fillRowCells_mem_y (gens d) _ (cols d) b hb
    refine Or.inr ?_
    rw [hya, hyb]
    have : (i : Int) < (d : Int) := by exact_mod_cast hi
    omega

/-- A state whose active piece overlaps the filled field while unable to
descend, with the pending-lock flag already set (reachable by
hard-dropping a spawned piece that overlaps the stack and waiting one
tick: the code never checks the spawn pose itself for overlap). -/
def overlapLockState : GameState :=
  { baseState with
    filledField := [Cell.mk 4 1 "White"]
    currentTetrominoPosition := ⟨4, 0⟩
    isLastMove := true }

/-- C5 counterexample: a lock tick from a duplicate-free field can
produce a duplicate coordinate, because `saveTetromino` appends the
piece cells without any overlap check — the no-duplicate invariant is
not preserved by every engine step. -/
theorem c5_counterexample :
    distinctCoords overlapLockState.filledField ∧
    ¬ distinctCoords ((game ([[⟨0, 0⟩]], "White") overlapLockState).filledField) := by
  constructor
  · decide
  · decide

/-- C5 (amended): the filled field has pairwise distinct coordinates
after `restart`'s difficulty pre-fill (for every difficulty and every
outcome of the random fills), and a logic tick preserves the property
provided additionally that the active piece's cells do not collide with
the field (the union of old field and piece cells is duplicate-free) —
without that proviso a lock can duplicate a coordinate, see the
counterexample.  The movement intents and the pause toggle do not touch
the filled field at all. -/
theorem c5_no_duplicate_coords (s : GameState) (rnd rnd2 : Tetromino × Color)
    (difficulty : Nat) (gens : Nat → List Bool)
    (rowColors : Nat → Nat → Color) (d : Direction)
    (hs : distinctCoords (s.filledField ++ lockedPieceCells s)) :
    distinctCoords ((restart difficulty gens rowColors rnd2 s).filledField) ∧
    distinctCoords ((game rnd s).filledField) ∧
    (strafeTetromino d s).filledField = s.filledField ∧
    (rotateTetromino s).filledField = s.filledField ∧
    (pullFullTetromino s).filledField = s.filledField ∧
    (togglePause s).filledField = s.filledField := by
  have hfld : distinctCoords s.filledField :=
    List.Pairwise.sublist (List.sublist_append_left _ _) hs
  refine ⟨fillFieldModel_distinct _ _ _, ?_, ?_, ?_, ?_, ?_⟩
  · simp only [game]
    split
    · exact hfld
    · split
      · exact hfld
      · split <;> split
        · exact hfld
        · exact distinctCoords_destroyRowsLoop allY _ 0 hs
        · exact hfld
        · exact distinctCoords_destroyRowsLoop allY _ 0 hs
  · unfold strafeTetromino
    split <;> rfl
  · unfold rotateTetromino
    split <;> rfl
  · unfold pullFullTetromino
    split
    · rfl
    · exact (pullFullLoop_frame _).1
  · unfold togglePause
    split <;> rfl

theorem c5_no_duplicate_coords_witness :
    distinctCoords ((restart 3 (fun _ => List.replicate 10 true)
        (fun _ _ => "White") ([[⟨0, 0⟩]], "Orange")
        restingPieceState).filledField) ∧
    distinctCoords ((game ([[⟨0, 0⟩]], "White") restingPieceState).filledField) ∧
    (strafeTetromino Direction.left restingPieceState).filledField =
      restingPieceState.filledField ∧
    (rotateTetromino restingPieceState).filledField =
      restingPieceState.filledField ∧
    (pullFullTetromino restingPieceState).filledField =
      restingPieceState.filledField ∧
    (togglePause restingPieceState).filledField =
      restingPieceState.filledField :=
  c5_no_duplicate_coords restingPieceState ([[⟨0, 0⟩]], "White")
    ([[⟨0, 0⟩]], "Orange") 3 (fun _ => List.replicate 10 true)
    (fun _ _ => "White") Direction.left (by decide)
